import Mathlib

/-!
Verification of the two-phase module-resolution core of
`contrast-module-identifier` (shallow embedding of
`module_identifier/resolver.py`, `identify.py`, `pipeline.py` and
`llm/agent.py`).

Python floats are modelled as exact rationals, Python strings as Lean
strings (lowercasing is modelled on the ASCII range, which covers every
name the scorer compares), Python dicts as association lists with
insert-or-replace semantics, and the asynchronous LLM agent as an oracle
from modules to outcomes (structured output or raised exception).
-/

namespace ContrastModuleIdentifier

/-- The closed ecosystem enum of `models.py`. -/
inductive Ecosystem
  | java | node | python | go | ruby | dotnet | php
deriving DecidableEq, Repr

/-- `models.DiscoveredModule` (the manifest kind is kept abstract as the
manifest file name; it is never inspected by the resolution core). -/
structure DiscoveredModule where
  name : String
  path : String
  manifest : String
  ecosystem : Ecosystem
  contrast_app_name : Option String := none
deriving DecidableEq, Repr

/-- `resolver.AppCandidate`: an application returned from Contrast search. -/
structure AppCandidate where
  app_id : String
  name : String
  language : String
deriving DecidableEq, Repr

/-- `resolver.AppMatch`.  The `source` provenance field is
Modelled from the spec: the Match "provenance tag distinguishing
deterministic from llm-sourced matches" is read by `__main__.py` and
constructed by `identify.py` and the tests, but the field itself is
absent from the `AppMatch` dataclass in `resolver.py`; the spec gives its
two values ("deterministic" for resolver-built matches, "llm" for
agent-built ones) and §4.3 fixes the resolver default. -/
structure AppMatch where
  module : DiscoveredModule
  app_id : String
  app_name : String
  confidence : ℚ
  search_term : String
  source : String := "deterministic"
deriving DecidableEq, Repr

/-- ASCII lowercasing of one character, as `str.lower` acts on ASCII. -/
def lowerChar (c : Char) : Char :=
  if 'A' ≤ c ∧ c ≤ 'Z' then Char.ofNat (c.toNat + 32) else c

/-- ASCII lowercasing of a string (`str.lower`). -/
def lowerStr (s : String) : String :=
  String.mk (s.data.map lowerChar)

/-- Python `str.split(sep)` on a one-character separator: splits at every
occurrence and keeps empty pieces. -/
def splitOnChar (sep : Char) : List Char → List (List Char)
  | [] => [[]]
  | c :: rest =>
    let r := splitOnChar sep rest
    if c = sep then [] :: r
    else
      match r with
      | [] => [[c]]
      | t :: ts => (c :: t) :: ts

/-- Python `s.split(sep, 1)[-1]` when `sep` occurs in `s`: everything
after the first occurrence of the separator. -/
def afterFirstChar (sep : Char) : List Char → List Char
  | [] => []
  | c :: rest => if c = sep then rest else afterFirstChar sep rest

/-- Python `s.rsplit(sep, 1)[-1]` / `s.split(sep)[-1]`: the final
separator-delimited segment. -/
def lastSegment (sep : Char) (cs : List Char) : List Char :=
  (splitOnChar sep cs).getLastD cs

/-- `resolver.extract_search_term`: override from `contrast_security.yaml`
wins (Python truthiness: a present but empty override is ignored),
otherwise ecosystem-specific prefixes are stripped. -/
def extract_search_term (module : DiscoveredModule) : String :=
  match module.contrast_app_name with
  | some app_name =>
    if app_name ≠ "" then app_name else extractFromName module
  | none => extractFromName module
where
  extractFromName (module : DiscoveredModule) : String :=
    let name := module.name
    -- Maven: groupId:artifactId -> artifactId
    if name.data.contains ':' ∧ module.ecosystem = Ecosystem.java then
      String.mk (lastSegment ':' name.data)
    -- Node scoped: @scope/name -> name (split at the first slash only)
    else if name.data.head? = some '@' ∧ name.data.contains '/' then
      String.mk (afterFirstChar '/' name.data)
    -- Go module path: github.com/org/repo -> repo
    else if name.data.contains '/' ∧ module.ecosystem = Ecosystem.go then
      String.mk (lastSegment '/' name.data)
    -- PHP: vendor/package -> package
    else if name.data.contains '/' ∧ module.ecosystem = Ecosystem.php then
      String.mk (lastSegment '/' name.data)
    else name

/-- The fixed `_ECOSYSTEM_TO_LANGUAGE` table of `resolver.py` (every
constructor of the enum has an entry, so the Python `dict.get` never
returns `None`). -/
def ecosystemToLanguage : Ecosystem → String
  | .java => "Java"
  | .node => "Node"
  | .python => "Python"
  | .go => "Go"
  | .ruby => "Ruby"
  | .dotnet => ".NET Core"
  | .php => "PHP"

/-- A separator character of the tokenizer regex `[-_.\s]+`
(`\s` being space, tab, newline, carriage return, form feed, vertical tab). -/
def isSepChar (c : Char) : Bool :=
  c = '-' ∨ c = '_' ∨ c = '.' ∨ c = ' ' ∨ c = '\t' ∨ c = '\n' ∨ c = '\r' ∨
    c = Char.ofNat 11 ∨ c = Char.ofNat 12

/-- Maximal separator-free segments of a character list (splitting on
single separators and discarding empty pieces coincides with splitting
on separator runs and discarding empty pieces, which is what
`re.split` with a `+`-quantified class followed by the `- {""}` does). -/
def segmentsAcc : List Char → List Char → List String
  | [], acc => if acc.isEmpty then [] else [String.mk acc.reverse]
  | c :: cs, acc =>
    if isSepChar c then
      if acc.isEmpty then segmentsAcc cs [] else String.mk acc.reverse :: segmentsAcc cs []
    else segmentsAcc cs (c :: acc)

/-- `resolver._tokenize`: lowercase, split on separators, as a set (a
Python set is modelled as a duplicate-free list; only membership and
cardinality of these lists are ever used). -/
def tokenizeFn (name : String) : List String :=
  (segmentsAcc (lowerStr name).data []).dedup

/-- `resolver.score_candidate`: exact-match short circuit, else Jaccard
token overlap scaled by 0.7 plus a 0.2 language bonus, clamped at 1.
Set intersection and union are computed on the duplicate-free token
lists, preserving the cardinalities of the Python set operations. -/
def score_candidate (module : DiscoveredModule) (candidate : AppCandidate)
    (search_term : String) : ℚ :=
  let app_name_lower := lowerStr candidate.name
  let term_lower := lowerStr search_term
  let lang_match := candidate.language = ecosystemToLanguage module.ecosystem
  if app_name_lower = term_lower then
    if lang_match then 1 else 4/5
  else
    let module_tokens := tokenizeFn search_term
    let app_tokens := tokenizeFn candidate.name
    if module_tokens = [] ∨ app_tokens = [] then 0
    else
      let intersection := module_tokens.filter (fun t => t ∈ app_tokens)
      let union := module_tokens ++ app_tokens.filter (fun t => t ∉ module_tokens)
      let jaccard : ℚ := (intersection.length : ℚ) / (union.length : ℚ)
      let score := jaccard * (7/10)
      let score := if lang_match then score + 1/5 else score
      min score 1

/-- One step of the best-tracking loop of `resolver.resolve_module`
(`if score > best_score: best_score, best_candidate = score, candidate`). -/
def stepBest (module : DiscoveredModule) (term : String)
    (acc : Option AppCandidate × ℚ) (candidate : AppCandidate) :
    Option AppCandidate × ℚ :=
  if score_candidate module candidate term > acc.2 then
    (some candidate, score_candidate module candidate term)
  else acc

/-- `resolver.resolve_module`: strict-greater best tracking starting from
`(None, 0.0)`, absent below the confidence threshold. -/
def resolve_module (module : DiscoveredModule) (candidates : List AppCandidate)
    (confidence_threshold : ℚ) : Option AppMatch :=
  let search_term := extract_search_term module
  if candidates.isEmpty then none
  else
    let best := candidates.foldl (stepBest module search_term) (none, 0)
    match best.1 with
    | none => none
    | some best_candidate =>
      if best.2 < confidence_threshold then none
      else some
        { module := module
          app_id := best_candidate.app_id
          app_name := best_candidate.name
          confidence := best.2
          search_term := search_term
          source := "deterministic" }

/-- A Python dict keyed by strings, as an association list: insertion
order of first occurrence is kept and assignment to a present key
replaces its value in place. -/
def dictInsert {α : Type} (d : List (String × α)) (k : String) (v : α) :
    List (String × α) :=
  if d.any (fun p => p.1 = k) then
    d.map (fun p => if p.1 = k then (k, v) else p)
  else d ++ [(k, v)]

/-- Keys of a dict, in order. -/
def dictKeys {α : Type} (d : List (String × α)) : List String :=
  d.map Prod.fst

/-- Lookup in a dict. -/
def dictLookup {α : Type} (d : List (String × α)) (k : String) : Option α :=
  (d.find? (fun p => p.1 = k)).map Prod.snd

/-- A dict built from a module list, keyed by module path (the shape of
both `resolver.resolve_modules` and `llm.agent.resolve_modules`). -/
def buildDict {α : Type} (f : DiscoveredModule → α)
    (modules : List DiscoveredModule) : List (String × α) :=
  modules.foldl (fun d m => dictInsert d m.path (f m)) []

/-- `resolver.resolve_modules`: `{module.path: resolve_module(...) for module in modules}`. -/
def resolve_modules (modules : List DiscoveredModule)
    (candidates : List AppCandidate) (confidence_threshold : ℚ) :
    List (String × Option AppMatch) :=
  buildDict (fun m => resolve_module m candidates confidence_threshold) modules

/-- `identify.DEFAULT_THRESHOLD`. -/
def DEFAULT_THRESHOLD : ℚ := 7/10

/-- `identify.AMBIGUITY_FLOOR`. -/
def AMBIGUITY_FLOOR : ℚ := 3/5

/-- The counting loop of `identify._is_ambiguous`, with its early return
as soon as the strong-candidate count exceeds one. -/
def ambiguousLoop (module : DiscoveredModule) (term : String) (floor : ℚ) :
    List AppCandidate → ℕ → Bool
  | [], _ => false
  | c :: cs, strong =>
    if score_candidate module c term ≥ floor then
      if strong + 1 > 1 then true else ambiguousLoop module term floor cs (strong + 1)
    else ambiguousLoop module term floor cs strong

/-- `identify._is_ambiguous`. -/
def _is_ambiguous (module : DiscoveredModule) (candidates : List AppCandidate)
    (floor : ℚ := AMBIGUITY_FLOOR) : Bool :=
  ambiguousLoop module (extract_search_term module) floor candidates 0

/-- Running maximum of candidate scores, seeded with a start value (the
spec's "track the maximum score"; `resolve_module` seeds it with 0.0). -/
def maxScoreFrom (module : DiscoveredModule) (term : String) (bs : ℚ)
    (cs : List AppCandidate) : ℚ :=
  cs.foldl (fun b c => max b (score_candidate module c term)) bs

/-- The best score of a candidate list, 0 when the list is empty. -/
def bestScore (module : DiscoveredModule) (term : String)
    (cs : List AppCandidate) : ℚ :=
  maxScoreFrom module term 0 cs

/-- The first candidate attaining the best score (the spec's "first-seen
candidate wins ties"). -/
def firstBest (module : DiscoveredModule) (term : String)
    (cs : List AppCandidate) : Option AppCandidate :=
  cs.find? (fun c =>
    decide (score_candidate module c term = bestScore module term cs))

/-- The categorical confidence of `llm.models.LLMMatch` (a closed
`Literal` in the source, so the orchestrator's map lookup is total). -/
inductive LLMConfidence
  | HIGH | MEDIUM | LOW
deriving DecidableEq, Repr

/-- `llm.models.LLMMatch` (the open metadata bag is never consumed by
the resolution core and is omitted). -/
structure LLMMatch where
  application_id : String
  application_name : String
  confidence : LLMConfidence
  reasoning : String
deriving DecidableEq, Repr

/-- The outcome of one `agent.run` invocation inside
`llm.agent.resolve_module`: a structured output, or a raised exception
(timeout, malformed output, tool failure). -/
inductive AgentOutcome
  | output (m : LLMMatch)
  | error
deriving DecidableEq, Repr

/-- `llm.agent.resolve_module` as a function of the outcome of its
`agent.run` call: the `except Exception` handler maps any exception to
None, and the `NOT_FOUND` sentinel also maps to None. -/
def llm_resolve_module (outcome : AgentOutcome) : Option LLMMatch :=
  match outcome with
  | .error => none
  | .output m => if m.application_id = "NOT_FOUND" then none else some m

/-- `llm.agent.resolve_modules`: a sequential loop filling a dict keyed
by module path; the agent behaviour is abstracted as an oracle from
modules to invocation outcomes. -/
def llm_resolve_modules (modules : List DiscoveredModule)
    (agent : DiscoveredModule → AgentOutcome) :
    List (String × Option LLMMatch) :=
  buildDict (fun m => llm_resolve_module (agent m)) modules

/-- `identify._LLM_CONFIDENCE_MAP` (the `.get` default 0.7 is
unreachable because the key ranges over the closed literal type). -/
def llmConfidenceMap : LLMConfidence → ℚ
  | .HIGH => 19/20
  | .MEDIUM => 4/5
  | .LOW => 3/5

/-- The present entries of a path-keyed dict of optional outcomes
(`{path: match for path, match in results.items() if match is not None}`). -/
def somesOf {α : Type} (d : List (String × Option α)) : List (String × α) :=
  d.filterMap (fun pr => pr.2.map (fun v => (pr.1, v)))

/-- The keys whose outcome is absent
(`[path for path, match in results.items() if match is None]`). -/
def nonesOf {α : Type} (d : List (String × Option α)) : List String :=
  (d.filter (fun pr => pr.2.isNone)).map Prod.fst

/-- `pipeline.PipelineResult`. -/
structure PipelineResult where
  matched : List (String × AppMatch)
  unmatched : List String
  total : ℕ
  llm_matched : List (String × LLMMatch)
deriving Repr

/-- `pipeline.run` from the point where modules and the registry app
list are in hand (discovery and the MCP fetch are the excluded
collaborators).  The second component instruments the run with the list
of modules handed to `llm_resolve_modules`, i.e. the modules on which the
fallback agent is invoked. -/
def run (modules : List DiscoveredModule) (apps : List AppCandidate)
    (confidence_threshold : ℚ) (agent : DiscoveredModule → AgentOutcome) :
    PipelineResult × List DiscoveredModule :=
  let results := resolve_modules modules apps confidence_threshold
  let matched := somesOf results
  let unmatched_paths := nonesOf results
  if unmatched_paths.isEmpty then
    ({ matched := matched, unmatched := unmatched_paths,
       total := modules.length, llm_matched := [] }, [])
  else
    let unmatched_modules :=
      modules.filter (fun m => unmatched_paths.contains m.path)
    let llm_results := llm_resolve_modules unmatched_modules agent
    let llm_matched := somesOf llm_results
    let still_unmatched := nonesOf llm_results
    ({ matched := matched, unmatched := still_unmatched,
       total := modules.length, llm_matched := llm_matched }, unmatched_modules)

/-- `identify._best_deterministic_match`: resolve every module at
threshold 0, keep the strictly best. -/
def _best_deterministic_match (modules : List DiscoveredModule)
    (candidates : List AppCandidate) : Option AppMatch :=
  modules.foldl
    (fun best m =>
      match resolve_module m candidates 0 with
      | none => best
      | some mt =>
        match best with
        | none => some mt
        | some b => if mt.confidence > b.confidence then some mt else best)
    none

/-- Step 5 of `identify.identify_repo`: invoke the LLM fallback on the
target module and reconcile its result into an `AppMatch` with the
mapped numeric confidence and the "llm" provenance tag. -/
def identifyLlmFallback (target : DiscoveredModule)
    (agent : DiscoveredModule → AgentOutcome) :
    Option AppMatch × Option DiscoveredModule :=
  match llm_resolve_module (agent target) with
  | some lm =>
    (some { module := target
            app_id := lm.application_id
            app_name := lm.application_name
            confidence := llmConfidenceMap lm.confidence
            search_term := extract_search_term target
            source := "llm" },
     some target)
  | none => (none, some target)

/-- Step 4 of `identify.identify_repo` for a present best match:
`from_yaml = best.module.contrast_app_name` truthiness (yaml overrides
skip the ambiguity check) and
`ambiguous = not from_yaml and _is_ambiguous(best.module, candidates)`. -/
def identifyAmbiguous (b : AppMatch) (candidates : List AppCandidate) : Bool :=
  !(decide (b.module.contrast_app_name.getD "" ≠ "")) &&
    _is_ambiguous b.module candidates AMBIGUITY_FLOOR

/-- `identify.identify_repo` from the point where modules and candidates
are in hand, instrumented in its second component with the module passed
to the LLM fallback (None when the fallback is never invoked);
`llm_enabled` stands for `llm_config is not None`. -/
def identify_repo (modules : List DiscoveredModule)
    (candidates : List AppCandidate) (llm_enabled : Bool)
    (agent : DiscoveredModule → AgentOutcome)
    (confidence_threshold : ℚ := DEFAULT_THRESHOLD) :
    Option AppMatch × Option DiscoveredModule :=
  if candidates.isEmpty then (none, none)
  else
    match modules with
    | [] => (none, none)
    | m0 :: _ =>
      match _best_deterministic_match modules candidates with
      | some b =>
        if b.confidence ≥ confidence_threshold ∧
            identifyAmbiguous b candidates = false then
          (some b, none)
        else if llm_enabled then identifyLlmFallback b.module agent
        else (none, none)
      | none =>
        if llm_enabled then identifyLlmFallback m0 agent
        else (none, none)

/-- A carriage return or line feed. -/
def isCrlfChar (c : Char) : Bool :=
  c = '\r' ∨ c = '\n'

/-- An ASCII control character: code below 32, or DEL. -/
def isCtrlChar (c : Char) : Bool :=
  c.toNat < 32 ∨ c.toNat = 127

/-- Character codes stripped as prompt-structure injection vectors:
the two curly braces, the two angle brackets, backtick, single quote,
double quote and the equals sign. -/
def promptInjectionCodes : List ℕ :=
  [123, 125, 60, 62, 96, 39, 34, 61]

/-- A prompt-structure injection character. -/
def isInjectionChar (c : Char) : Bool :=
  c.toNat ∈ promptInjectionCodes

/-- Modelled from the spec: the character pass of `llm.agent._sanitize`.
The helper is imported by `tests/test_llm_agent.py` but its definition is
absent from `llm/agent.py` in this tree; §4.5 of the spec fixes its
behaviour — collapse each CR/LF run into a single space, remove other
control characters (NUL, TAB, ...) without a replacement, and strip
prompt-structure characters. -/
def sanitizeChars : List Char → List Char
  | [] => []
  | c :: cs =>
    if isCrlfChar c then ' ' :: sanitizeChars (cs.dropWhile isCrlfChar)
    else if isCtrlChar c ∨ isInjectionChar c then sanitizeChars cs
    else c :: sanitizeChars cs
termination_by l => l.length
decreasing_by
  all_goals simp only [List.length_cons]
  · exact Nat.lt_succ_of_le (List.dropWhile_sublist _).length_le
  · omega
  · omega

/-- Modelled from the spec: `llm.agent._sanitize` — the character pass
followed by truncation to at most 200 characters. -/
def _sanitize (s : String) : String :=
  String.mk ((sanitizeChars s.data).take 200)

/-- Modelled from the spec: the module-derived strings (declared name
and path) interpolated into `AGENT_INSTRUCTIONS` pass through
`_sanitize` before interpolation. -/
def sanitizedPromptFields (module : DiscoveredModule) : String × String :=
  (_sanitize module.name, _sanitize module.path)

-- ## Theorems

/-- C1: whenever the search term and the candidate display name are equal
after lowercasing, `score_candidate` returns exactly 1 when the
candidate's language equals the fixed ecosystem-to-language mapping of
the module's ecosystem and exactly 4/5 (= 0.8) otherwise; the result does
not depend on token overlap. -/
theorem score_candidate_exact_match (module : DiscoveredModule)
    (candidate : AppCandidate) (search_term : String)
    (h : lowerStr candidate.name = lowerStr search_term) :
    score_candidate module candidate search_term =
      if candidate.language = ecosystemToLanguage module.ecosystem then 1
      else 4/5 := by
  unfold score_candidate
  simp only [h, if_true, if_pos rfl]

/-- Witness for C1: the java module `com.acme:order-api` against the
candidate `order-api` tagged `Java` scores exactly 1. -/
theorem score_candidate_exact_match_witness :
    score_candidate
      { name := "com.acme:order-api", path := ".", manifest := "pom.xml",
        ecosystem := .java }
      { app_id := "app-1", name := "order-api", language := "Java" }
      "order-api" = 1 := by
  rw [score_candidate_exact_match _ _ _ (by decide)]
  norm_num +decide [ecosystemToLanguage]

/-- The early-return loop of `_is_ambiguous` decides whether the strong
count reaches two, for the start values 0 and 1 it is actually run on. -/
theorem ambiguousLoop_eq (m : DiscoveredModule) (term : String) (floor : ℚ) :
    ∀ (cs : List AppCandidate) (strong : ℕ), strong ≤ 1 →
      (ambiguousLoop m term floor cs strong = true ↔
        2 ≤ strong +
          cs.countP (fun c => decide (floor ≤ score_candidate m c term)))
  | [], strong, h => by
    simp only [ambiguousLoop, List.countP_nil, Nat.add_zero,
      Bool.false_eq_true, false_iff]
    omega
  | c :: cs, strong, h => by
    simp only [ambiguousLoop, List.countP_cons]
    by_cases hc : floor ≤ score_candidate m c term
    · rw [if_pos (by exact hc)]
      have hdec : (decide (floor ≤ score_candidate m c term)) = true := by
        simpa using hc
      by_cases hs : strong + 1 > 1
      · rw [if_pos hs]
        simp only [hdec, if_true, true_iff]
        omega
      · rw [if_neg hs]
        rw [ambiguousLoop_eq m term floor cs (strong + 1) (by omega)]
        simp only [hdec, if_true]
        omega
    · rw [if_neg (by exact hc)]
      rw [ambiguousLoop_eq m term floor cs strong h]
      have hdec : (decide (floor ≤ score_candidate m c term)) = false := by
        simpa using hc
      simp [hdec]

/-- C6: `_is_ambiguous` returns true exactly when at least two candidates
score at or above the floor, and hence false when zero or exactly one
does, however high that one score is. -/
theorem is_ambiguous_iff_two_strong (module : DiscoveredModule)
    (candidates : List AppCandidate) (floor : ℚ) :
    _is_ambiguous module candidates floor = true ↔
      2 ≤ candidates.countP (fun c =>
        decide (floor ≤ score_candidate module c (extract_search_term module))) := by
  unfold _is_ambiguous
  rw [ambiguousLoop_eq module (extract_search_term module) floor candidates 0
    (by omega)]
  simp

theorem maxScoreFrom_cons (module : DiscoveredModule) (term : String)
    (bs : ℚ) (c : AppCandidate) (cs : List AppCandidate) :
    maxScoreFrom module term bs (c :: cs) =
      maxScoreFrom module term (max bs (score_candidate module c term)) cs :=
  rfl

theorem le_maxScoreFrom (module : DiscoveredModule) (term : String) :
    ∀ (cs : List AppCandidate) (bs : ℚ), bs ≤ maxScoreFrom module term bs cs
  | [], bs => le_refl bs
  | c :: cs, bs =>
    le_trans (le_max_left bs (score_candidate module c term))
      (le_maxScoreFrom module term cs (max bs (score_candidate module c term)))

theorem maxScoreFrom_attained (module : DiscoveredModule) (term : String) :
    ∀ (cs : List AppCandidate) (bs : ℚ),
      bs < maxScoreFrom module term bs cs →
      ∃ c ∈ cs, score_candidate module c term = maxScoreFrom module term bs cs
  | [], bs, h => absurd h (lt_irrefl bs)
  | c :: cs, bs, h => by
    rw [maxScoreFrom_cons] at h ⊢
    by_cases hs : bs < score_candidate module c term
    · rcases eq_or_lt_of_le
        (le_maxScoreFrom module term cs
          (max bs (score_candidate module c term))) with heq | hlt
      · refine ⟨c, List.mem_cons_self c cs, ?_⟩
        rw [← heq, max_eq_right (le_of_lt hs)]
      · obtain ⟨c2, hc2, hsc2⟩ := maxScoreFrom_attained module term cs _ hlt
        exact ⟨c2, List.mem_cons_of_mem c hc2, hsc2⟩
    · rw [max_eq_left (le_of_not_lt hs)] at h ⊢
      obtain ⟨c2, hc2, hsc2⟩ := maxScoreFrom_attained module term cs bs h
      exact ⟨c2, List.mem_cons_of_mem c hc2, hsc2⟩

theorem foldl_stepBest_snd (module : DiscoveredModule) (term : String) :
    ∀ (cs : List AppCandidate) (bc : Option AppCandidate) (bs : ℚ),
      (cs.foldl (stepBest module term) (bc, bs)).2 = maxScoreFrom module term bs cs
  | [], _, _ => rfl
  | c :: cs, bc, bs => by
    have hstep : stepBest module term (bc, bs) c =
        if score_candidate module c term > bs then
          (some c, score_candidate module c term)
        else (bc, bs) := rfl
    rw [List.foldl_cons, hstep, maxScoreFrom_cons]
    by_cases hs : score_candidate module c term > bs
    · rw [if_pos hs, foldl_stepBest_snd module term cs (some c) _,
        max_eq_right (le_of_lt hs)]
    · rw [if_neg hs, foldl_stepBest_snd module term cs bc bs,
        max_eq_left (le_of_not_lt hs)]

theorem foldl_stepBest_fst (module : DiscoveredModule) (term : String) :
    ∀ (cs : List AppCandidate) (bc : Option AppCandidate) (bs : ℚ),
      (cs.foldl (stepBest module term) (bc, bs)).1 =
        if bs < maxScoreFrom module term bs cs then
          cs.find? (fun c =>
            decide (score_candidate module c term = maxScoreFrom module term bs cs))
        else bc
  | [], bc, bs => by
    rw [show maxScoreFrom module term bs [] = bs from rfl,
      if_neg (lt_irrefl bs)]
    rfl
  | c :: cs, bc, bs => by
    have hstep : stepBest module term (bc, bs) c =
        if score_candidate module c term > bs then
          (some c, score_candidate module c term)
        else (bc, bs) := rfl
    rw [List.foldl_cons, hstep, maxScoreFrom_cons]
    by_cases hs : score_candidate module c term > bs
    · rw [if_pos hs, foldl_stepBest_fst module term cs (some c) _,
        max_eq_right (le_of_lt hs)]
      have hle : score_candidate module c term ≤
          maxScoreFrom module term (score_candidate module c term) cs :=
        le_maxScoreFrom module term cs _
      rcases eq_or_lt_of_le hle with heq | hlt
      · rw [if_neg (by rw [← heq]; exact lt_irrefl _),
          if_pos (lt_of_lt_of_le hs hle),
          List.find?_cons_of_pos _ (by
            simp only [decide_eq_true_eq]
            exact heq)]
      · rw [if_pos hlt, if_pos (lt_trans hs hlt),
          List.find?_cons_of_neg _ (by
            simp only [decide_eq_true_eq]
            exact ne_of_lt hlt)]
    · rw [if_neg hs, foldl_stepBest_fst module term cs bc bs,
        max_eq_left (le_of_not_lt hs)]
      by_cases hlt : bs < maxScoreFrom module term bs cs
      · rw [if_pos hlt, if_pos hlt,
          List.find?_cons_of_neg _ (by
            simp only [decide_eq_true_eq]
            exact ne_of_lt (lt_of_le_of_lt (le_of_not_lt hs) hlt))]
      · rw [if_neg hlt, if_neg hlt]

/-- C2 counterexample: with threshold 0 and one candidate scoring 0, the
candidate list is non-empty and the best score is not below the
threshold, yet `resolve_module` returns absent (the loop seeds the best
candidate with None and only a strictly positive score replaces it), so
the claim "otherwise returns a Match" is false at this input. -/
theorem resolve_module_counterexample_c2 :
    ([({ app_id := "a1", name := "abc-app", language := "Node" } : AppCandidate)] ≠
      ([] : List AppCandidate)) ∧
    ¬(bestScore
        { name := "xyz-service", path := ".", manifest := "pom.xml",
          ecosystem := .java }
        (extract_search_term
          { name := "xyz-service", path := ".", manifest := "pom.xml",
            ecosystem := .java })
        [{ app_id := "a1", name := "abc-app", language := "Node" }] < 0) ∧
    resolve_module
      { name := "xyz-service", path := ".", manifest := "pom.xml",
        ecosystem := .java }
      [{ app_id := "a1", name := "abc-app", language := "Node" }] 0 = none := by
  refine ⟨by simp, ?_, ?_⟩
  · norm_num +decide [bestScore, maxScoreFrom, score_candidate,
      extract_search_term, extract_search_term.extractFromName, tokenizeFn,
      segmentsAcc, isSepChar, lowerStr, lowerChar, ecosystemToLanguage]
  · norm_num +decide [resolve_module, stepBest, score_candidate,
      extract_search_term, extract_search_term.extractFromName, tokenizeFn,
      segmentsAcc, isSepChar, lowerStr, lowerChar, ecosystemToLanguage]

/-- C2 (amended): `resolve_module` is absent exactly when the candidate
list is empty, no candidate scores strictly above zero, or the best score
is below the threshold (so at best score equal to the threshold a match
is returned whenever some candidate scores above zero); a returned match
carries the maximum candidate score as its confidence, that score is at
least the threshold, and its candidate is the first maximum-scoring one,
so the first-seen candidate wins ties of the strict-greater tracking. -/
theorem resolve_module_spec (module : DiscoveredModule)
    (candidates : List AppCandidate) (threshold : ℚ) :
    (resolve_module module candidates threshold = none ↔
      candidates = [] ∨
      bestScore module (extract_search_term module) candidates ≤ 0 ∨
      bestScore module (extract_search_term module) candidates < threshold) ∧
    (∀ mt, resolve_module module candidates threshold = some mt →
      mt.confidence = bestScore module (extract_search_term module) candidates ∧
      threshold ≤ mt.confidence ∧ 0 < mt.confidence ∧
      mt.module = module ∧
      mt.search_term = extract_search_term module ∧
      mt.source = "deterministic" ∧
      ∃ bc, firstBest module (extract_search_term module) candidates = some bc ∧
        mt.app_id = bc.app_id ∧ mt.app_name = bc.name) := by
  by_cases hemp : candidates = []
  · subst hemp
    constructor
    · simp [resolve_module]
    · intro mt h
      simp [resolve_module] at h
  · have hne : candidates.isEmpty = false := by
      simpa using hemp
    have hM0 : maxScoreFrom module (extract_search_term module) 0 candidates =
        bestScore module (extract_search_term module) candidates := rfl
    have hsnd := foldl_stepBest_snd module (extract_search_term module)
      candidates none 0
    have hfst := foldl_stepBest_fst module (extract_search_term module)
      candidates none 0
    rw [hM0] at hsnd hfst
    have hres : resolve_module module candidates threshold =
        (match (candidates.foldl
            (stepBest module (extract_search_term module)) (none, 0)).1 with
          | none => none
          | some best_candidate =>
            if (candidates.foldl
                (stepBest module (extract_search_term module)) (none, 0)).2 <
                threshold then none
            else some
              { module := module
                app_id := best_candidate.app_id
                app_name := best_candidate.name
                confidence := (candidates.foldl
                  (stepBest module (extract_search_term module)) (none, 0)).2
                search_term := extract_search_term module
                source := "deterministic" }) := by
      unfold resolve_module
      rw [hne]
      rfl
    by_cases hpos : 0 < bestScore module (extract_search_term module) candidates
    · rw [if_pos hpos] at hfst
      obtain ⟨c, hcmem, hcscore⟩ := maxScoreFrom_attained module
        (extract_search_term module) candidates 0 (by rw [hM0]; exact hpos)
      rw [hM0] at hcscore
      have hfind : (candidates.find? (fun c =>
          decide (score_candidate module c (extract_search_term module) =
            bestScore module (extract_search_term module) candidates))).isSome := by
        rw [List.find?_isSome]
        exact ⟨c, hcmem, by simpa using hcscore⟩
      obtain ⟨bc, hbc⟩ := Option.isSome_iff_exists.mp hfind
      rw [hbc] at hfst
      have hpair : candidates.foldl
          (stepBest module (extract_search_term module)) (none, 0) =
          (some bc, bestScore module (extract_search_term module) candidates) :=
        Prod.ext hfst hsnd
      have hres2 : resolve_module module candidates threshold =
          (if bestScore module (extract_search_term module) candidates <
              threshold then none
           else some
            { module := module, app_id := bc.app_id, app_name := bc.name
              confidence := bestScore module (extract_search_term module) candidates
              search_term := extract_search_term module
              source := "deterministic" }) := by
        rw [hres, hpair]
      constructor
      · rw [hres2]
        by_cases hth : bestScore module (extract_search_term module) candidates <
            threshold
        · rw [if_pos hth]
          simp [hemp, hth]
        · rw [if_neg hth]
          simp [hemp, hth, not_le_of_lt hpos]
      · intro mt hmt
        rw [hres2] at hmt
        by_cases hth : bestScore module (extract_search_term module) candidates <
            threshold
        · rw [if_pos hth] at hmt
          exact absurd hmt (by simp)
        · rw [if_neg hth] at hmt
          simp only [Option.some.injEq] at hmt
          subst hmt
          refine ⟨rfl, le_of_not_lt hth, hpos, rfl, rfl, rfl, bc, ?_, rfl, rfl⟩
          rw [firstBest, hbc]
    · rw [if_neg hpos] at hfst
      have hpair : candidates.foldl
          (stepBest module (extract_search_term module)) (none, 0) =
          (none, bestScore module (extract_search_term module) candidates) :=
        Prod.ext hfst hsnd
      have hres2 : resolve_module module candidates threshold = none := by
        rw [hres, hpair]
      rw [hres2]
      constructor
      · simp [le_of_not_lt hpos]
      · intro mt hmt
        exact absurd hmt (by simp)

/-- The module of the C2 witness. -/
def orderApiModule : DiscoveredModule :=
  { name := "com.acme:order-api", path := ".", manifest := "pom.xml",
    ecosystem := .java }

/-- The candidate of the C2 witness. -/
def orderApiCandidate : AppCandidate :=
  { app_id := "app-1", name := "order-api", language := "Java" }

/-- The match of the C2 witness. -/
def orderApiMatch : AppMatch :=
  { module := orderApiModule, app_id := "app-1", app_name := "order-api",
    confidence := 1, search_term := "order-api", source := "deterministic" }

/-- Witness for C2: the java module `com.acme:order-api` with the single
candidate `order-api` tagged `Java` at threshold 7/10 resolves to a match
whose confidence equals the best score, is at least the threshold, and
whose candidate is the first best-scoring one. -/
theorem resolve_module_spec_witness :
    orderApiMatch.confidence =
      bestScore orderApiModule (extract_search_term orderApiModule)
        [orderApiCandidate] ∧
    (7/10 : ℚ) ≤ orderApiMatch.confidence ∧
    firstBest orderApiModule (extract_search_term orderApiModule)
      [orderApiCandidate] = some orderApiCandidate := by
  have h := (resolve_module_spec orderApiModule [orderApiCandidate] (7/10)).2
    orderApiMatch
    (by
      norm_num +decide [resolve_module, stepBest, score_candidate,
        extract_search_term, extract_search_term.extractFromName, lastSegment,
        splitOnChar, lowerStr, lowerChar, ecosystemToLanguage,
        orderApiModule, orderApiCandidate, orderApiMatch])
  obtain ⟨hconf, hth, _, _, _, _, bc, hbc, hid, hname⟩ := h
  refine ⟨hconf, hth, ?_⟩
  rw [hbc]
  have hmem : bc ∈ [orderApiCandidate] := by
    have := List.mem_of_find?_eq_some hbc
    simpa using this
  have : bc = orderApiCandidate := by simpa using hmem
  rw [this]

/-- C9: a non-empty operator override name is returned verbatim by
`extract_search_term`, whatever the ecosystem. -/
theorem extract_search_term_override (module : DiscoveredModule) (ov : String)
    (h1 : module.contrast_app_name = some ov) (h2 : ov ≠ "") :
    extract_search_term module = ov := by
  unfold extract_search_term
  rw [h1]
  simp [h2]

/-- Witness for C9: a java module whose declared Maven name would
otherwise be stripped returns its `contrast_security.yaml` override
verbatim. -/
theorem extract_search_term_override_witness :
    extract_search_term
      { name := "com.acme:order-api", path := ".", manifest := "pom.xml",
        ecosystem := .java, contrast_app_name := some "webgoat-sm" } =
      "webgoat-sm" :=
  extract_search_term_override _ "webgoat-sm" rfl (by decide)

-- ### Dict (association-list) lemmas

theorem find?_append_eq {α : Type} (p : α → Bool) :
    ∀ (l1 l2 : List α),
      (l1 ++ l2).find? p = ((l1.find? p).orElse (fun _ => l2.find? p))
  | [], l2 => rfl
  | a :: l1, l2 => by
    by_cases ha : p a
    · rw [List.cons_append, List.find?_cons_of_pos _ ha,
        List.find?_cons_of_pos _ ha]
      rfl
    · rw [List.cons_append, List.find?_cons_of_neg _ (by simpa using ha),
        List.find?_cons_of_neg _ (by simpa using ha)]
      exact find?_append_eq p l1 l2

theorem mem_dictKeys_insert {α : Type} (d : List (String × α)) (k v p) :
    p ∈ dictKeys (dictInsert d k v) ↔ p = k ∨ p ∈ dictKeys d := by
  unfold dictInsert
  by_cases hany : d.any (fun q => q.1 = k)
  · rw [if_pos hany]
    have hk : k ∈ dictKeys d := by
      obtain ⟨q, hq, hq1⟩ := List.any_eq_true.mp hany
      exact List.mem_map.mpr ⟨q, hq, by simpa using hq1⟩
    have hkeys : dictKeys (d.map (fun q => if q.1 = k then (k, v) else q)) =
        dictKeys d := by
      unfold dictKeys
      rw [List.map_map]
      refine List.map_congr_left (fun q _ => ?_)
      by_cases hq : q.1 = k
      · simp [hq]
      · simp [hq]
    rw [hkeys]
    constructor
    · exact Or.inr
    · rintro (rfl | hp)
      · exact hk
      · exact hp
  · rw [if_neg hany]
    unfold dictKeys
    rw [List.map_append]
    simp [or_comm]

theorem nodup_dictKeys_insert {α : Type} (d : List (String × α)) (k v)
    (h : (dictKeys d).Nodup) : (dictKeys (dictInsert d k v)).Nodup := by
  unfold dictInsert
  by_cases hany : d.any (fun q => q.1 = k)
  · rw [if_pos hany]
    have hkeys : dictKeys (d.map (fun q => if q.1 = k then (k, v) else q)) =
        dictKeys d := by
      unfold dictKeys
      rw [List.map_map]
      refine List.map_congr_left (fun q _ => ?_)
      by_cases hq : q.1 = k
      · simp [hq]
      · simp [hq]
    rw [hkeys]
    exact h
  · rw [if_neg hany]
    unfold dictKeys
    rw [List.map_append]
    refine List.Nodup.append h (List.nodup_singleton k) ?_
    intro x hx hx2
    simp only [List.map_cons, List.map_nil, List.mem_singleton] at hx2
    subst hx2
    obtain ⟨q, hq, hq1⟩ := List.mem_map.mp hx
    exact (List.any_eq_true.not.mp hany) ⟨q, hq, by simpa using hq1⟩

theorem dictLookup_insert_self {α : Type} (k : String) (v : α) :
    ∀ (d : List (String × α)), dictLookup (dictInsert d k v) k = some v := by
  intro d
  unfold dictInsert
  by_cases hany : d.any (fun q => q.1 = k)
  · rw [if_pos hany]
    induction d with
    | nil => simp at hany
    | cons q d ih =>
      by_cases hq : q.1 = k
      · unfold dictLookup
        rw [List.map_cons, if_pos hq,
          List.find?_cons_of_pos _ (by simp)]
        rfl
      · unfold dictLookup
        rw [List.map_cons, if_neg hq,
          List.find?_cons_of_neg _ (by simpa using hq)]
        have hany2 : d.any (fun q => q.1 = k) := by
          rcases List.any_eq_true.mp hany with ⟨r, hr, hr1⟩
          rcases List.mem_cons.mp hr with rfl | hrd
          · exact absurd (by simpa using hr1) hq
          · exact List.any_eq_true.mpr ⟨r, hrd, hr1⟩
        exact ih hany2
  · rw [if_neg hany]
    unfold dictLookup
    rw [find?_append_eq]
    have hnone : d.find? (fun q => q.1 = k) = none := by
      rw [List.find?_eq_none]
      intro q hq
      simp only [decide_eq_true_eq]
      intro hqk
      exact (List.any_eq_true.not.mp hany) ⟨q, hq, by simpa using hqk⟩
    rw [hnone]
    simp [List.find?]

theorem dictLookup_insert_ne {α : Type} (d : List (String × α)) (k v p)
    (h : p ≠ k) : dictLookup (dictInsert d k v) p = dictLookup d p := by
  unfold dictInsert
  by_cases hany : d.any (fun q => q.1 = k)
  · rw [if_pos hany]
    clear hany
    induction d with
    | nil => rfl
    | cons q d ih =>
      rw [List.map_cons]
      by_cases hq : q.1 = k
      · rw [if_pos hq]
        unfold dictLookup
        rw [List.find?_cons_of_neg _ (by
            simp only [decide_eq_true_eq]
            exact fun hkp => h hkp.symm),
          List.find?_cons_of_neg _ (by
            simp only [decide_eq_true_eq]
            exact fun hqp => h (hqp ▸ hq))]
        exact ih
      · rw [if_neg hq]
        unfold dictLookup
        by_cases hqp : q.1 = p
        · rw [List.find?_cons_of_pos _ (by simpa using hqp),
            List.find?_cons_of_pos _ (by simpa using hqp)]
        · rw [List.find?_cons_of_neg _ (by simpa using hqp),
            List.find?_cons_of_neg _ (by simpa using hqp)]
          exact ih
  · rw [if_neg hany]
    unfold dictLookup
    rw [find?_append_eq]
    cases hfind : d.find? (fun q => q.1 = p) with
    | some q => rfl
    | none =>
      rw [show (Option.none (α := String × α)).orElse
          (fun _ => [(k, v)].find? (fun q => q.1 = p)) =
          [(k, v)].find? (fun q => q.1 = p) from rfl,
        List.find?_cons_of_neg _ (by
          simp only [decide_eq_true_eq]
          exact Ne.symm h)]
      rfl

theorem mem_dictKeys_foldl {α : Type} (f : DiscoveredModule → α) :
    ∀ (ms : List DiscoveredModule) (d : List (String × α)) (p : String),
      p ∈ dictKeys (ms.foldl (fun d m => dictInsert d m.path (f m)) d) ↔
        p ∈ dictKeys d ∨ p ∈ ms.map (fun m => m.path)
  | [], d, p => by simp
  | m :: ms, d, p => by
    rw [List.foldl_cons,
      mem_dictKeys_foldl f ms (dictInsert d m.path (f m)) p,
      mem_dictKeys_insert, List.map_cons, List.mem_cons]
    tauto

theorem mem_dictKeys_buildDict {α : Type} (f : DiscoveredModule → α)
    (ms : List DiscoveredModule) (p : String) :
    p ∈ dictKeys (buildDict f ms) ↔ p ∈ ms.map (fun m => m.path) := by
  unfold buildDict
  rw [mem_dictKeys_foldl]
  simp [dictKeys]

theorem nodup_dictKeys_foldl {α : Type} (f : DiscoveredModule → α) :
    ∀ (ms : List DiscoveredModule) (d : List (String × α)),
      (dictKeys d).Nodup →
      (dictKeys (ms.foldl (fun d m => dictInsert d m.path (f m)) d)).Nodup
  | [], _, h => h
  | m :: ms, d, h => by
    rw [List.foldl_cons]
    exact nodup_dictKeys_foldl f ms _ (nodup_dictKeys_insert d m.path (f m) h)

theorem nodup_dictKeys_buildDict {α : Type} (f : DiscoveredModule → α)
    (ms : List DiscoveredModule) : (dictKeys (buildDict f ms)).Nodup :=
  nodup_dictKeys_foldl f ms [] List.nodup_nil

theorem dictLookup_foldl_of_not_mem {α : Type} (f : DiscoveredModule → α) :
    ∀ (ms : List DiscoveredModule) (d : List (String × α)) (p : String),
      p ∉ ms.map (fun m => m.path) →
      dictLookup (ms.foldl (fun d m => dictInsert d m.path (f m)) d) p =
        dictLookup d p
  | [], _, _, _ => rfl
  | m :: ms, d, p, h => by
    rw [List.map_cons, List.mem_cons] at h
    push_neg at h
    rw [List.foldl_cons,
      dictLookup_foldl_of_not_mem f ms (dictInsert d m.path (f m)) p h.2,
      dictLookup_insert_ne d m.path (f m) p h.1]

theorem dictLookup_foldl_last {α : Type} (f : DiscoveredModule → α) :
    ∀ (ms : List DiscoveredModule) (d : List (String × α)) (p : String)
      (mlast : DiscoveredModule),
      ms.reverse.find? (fun m => m.path = p) = some mlast →
      dictLookup (ms.foldl (fun d m => dictInsert d m.path (f m)) d) p =
        some (f mlast)
  | [], d, p, mlast, h => by simp at h
  | m :: ms, d, p, mlast, h => by
    rw [List.reverse_cons, find?_append_eq] at h
    rw [List.foldl_cons]
    cases hfind : ms.reverse.find? (fun x => x.path = p) with
    | some m2 =>
      rw [hfind] at h
      have hm2 : m2 = mlast := by
        simpa using h
      subst hm2
      exact dictLookup_foldl_last f ms (dictInsert d m.path (f m)) p m2 hfind
    | none =>
      rw [hfind] at h
      have hnotmem : p ∉ ms.map (fun x => x.path) := by
        intro hmem
        obtain ⟨x, hx, hxp⟩ := List.mem_map.mp hmem
        have := List.find?_eq_none.mp hfind x (by simpa using hx)
        simp [hxp] at this
      by_cases hmp : m.path = p
      · have hml : m = mlast := by
          rw [show ((Option.none (α := DiscoveredModule)).orElse
            (fun _ => [m].find? (fun x => x.path = p))) =
            [m].find? (fun x => x.path = p) from rfl,
            List.find?_cons_of_pos _ (by simpa using hmp)] at h
          simpa using h
        subst hml
        rw [dictLookup_foldl_of_not_mem f ms _ p hnotmem, ← hmp,
          dictLookup_insert_self]
      · exfalso
        rw [show ((Option.none (α := DiscoveredModule)).orElse
          (fun _ => [m].find? (fun x => x.path = p))) =
          [m].find? (fun x => x.path = p) from rfl,
          List.find?_cons_of_neg _ (by simpa using hmp)] at h
        simp at h

-- ### Bucket-splitting lemmas for Option-valued dicts

theorem mem_somesKeys {α : Type} (p : String) :
    ∀ (d : List (String × Option α)),
      (p ∈ (somesOf d).map Prod.fst ↔ ∃ v, (p, some v) ∈ d)
  | [] => by simp [somesOf]
  | (k, none) :: d => by
    rw [show somesOf ((k, none) :: d) = somesOf d from rfl,
      mem_somesKeys p d]
    constructor
    · rintro ⟨v, hv⟩
      exact ⟨v, List.mem_cons_of_mem _ hv⟩
    · rintro ⟨v, hv⟩
      rcases List.mem_cons.mp hv with heq | hmem
      · exact absurd (congrArg Prod.snd heq) (by simp)
      · exact ⟨v, hmem⟩
  | (k, some v0) :: d => by
    rw [show somesOf ((k, some v0) :: d) = (k, v0) :: somesOf d from rfl,
      List.map_cons, List.mem_cons, mem_somesKeys p d]
    constructor
    · rintro (rfl | ⟨v, hv⟩)
      · exact ⟨v0, List.mem_cons_self _ _⟩
      · exact ⟨v, List.mem_cons_of_mem _ hv⟩
    · rintro ⟨v, hv⟩
      rcases List.mem_cons.mp hv with heq | hmem
      · exact Or.inl (congrArg Prod.fst heq)
      · exact Or.inr ⟨v, hmem⟩

theorem mem_nonesKeys {α : Type} (p : String) :
    ∀ (d : List (String × Option α)),
      (p ∈ nonesOf d ↔ (p, (none : Option α)) ∈ d)
  | [] => by simp [nonesOf]
  | (k, none) :: d => by
    rw [show nonesOf ((k, none) :: d) = k :: nonesOf d from rfl,
      List.mem_cons, mem_nonesKeys p d, List.mem_cons]
    constructor
    · rintro (rfl | hp)
      · exact Or.inl rfl
      · exact Or.inr hp
    · rintro (hp | hp)
      · exact Or.inl (congrArg Prod.fst hp)
      · exact Or.inr hp
  | (k, some v0) :: d => by
    rw [show nonesOf ((k, some v0) :: d) = nonesOf d from rfl,
      mem_nonesKeys p d, List.mem_cons]
    constructor
    · exact Or.inr
    · rintro (hp | hp)
      · exact absurd (congrArg Prod.snd hp) (by simp)
      · exact hp

theorem entry_unique_of_nodup {α : Type} :
    ∀ (d : List (String × α)), (dictKeys d).Nodup →
      ∀ pr1 pr2, pr1 ∈ d → pr2 ∈ d → pr1.1 = pr2.1 → pr1 = pr2
  | [], _, pr1, _, h1, _, _ => absurd h1 (List.not_mem_nil pr1)
  | q :: d, h, pr1, pr2, h1, h2, heq => by
    rw [show dictKeys (q :: d) = q.1 :: dictKeys d from rfl,
      List.nodup_cons] at h
    rcases List.mem_cons.mp h1 with rfl | h1d
    · rcases List.mem_cons.mp h2 with rfl | h2d
      · rfl
      · exfalso
        exact h.1 (heq ▸ List.mem_map.mpr ⟨pr2, h2d, rfl⟩)
    · rcases List.mem_cons.mp h2 with rfl | h2d
      · exfalso
        exact h.1 (heq ▸ List.mem_map.mpr ⟨pr1, h1d, rfl⟩)
      · exact entry_unique_of_nodup d h.2 pr1 pr2 h1d h2d heq

theorem dict_split_partition {α : Type} (d : List (String × Option α))
    (h : (dictKeys d).Nodup) (p : String) :
    (p ∈ dictKeys d ↔
      (p ∈ (somesOf d).map Prod.fst ∨ p ∈ nonesOf d)) ∧
    ¬(p ∈ (somesOf d).map Prod.fst ∧ p ∈ nonesOf d) := by
  constructor
  · rw [mem_somesKeys, mem_nonesKeys]
    constructor
    · intro hp
      obtain ⟨pr, hpr, hpr1⟩ := List.mem_map.mp hp
      cases h2 : pr.2 with
      | none =>
        right
        have heq : pr = (p, none) := by
          have hpr2 : pr = (pr.1, pr.2) := rfl
          rw [hpr2, h2, hpr1]
        exact heq ▸ hpr
      | some v =>
        left
        refine ⟨v, ?_⟩
        have heq : pr = (p, some v) := by
          have hpr2 : pr = (pr.1, pr.2) := rfl
          rw [hpr2, h2, hpr1]
        exact heq ▸ hpr
    · rintro (⟨v, hv⟩ | hv)
      · exact List.mem_map.mpr ⟨(p, some v), hv, rfl⟩
      · exact List.mem_map.mpr ⟨(p, none), hv, rfl⟩
  · rw [mem_somesKeys, mem_nonesKeys]
    rintro ⟨⟨v, hv⟩, hn⟩
    have := entry_unique_of_nodup d h (p, some v) (p, none) hv hn rfl
    simp at this

theorem run_of_all_matched (modules : List DiscoveredModule)
    (apps : List AppCandidate) (t : ℚ) (agent : DiscoveredModule → AgentOutcome)
    (h : (nonesOf (resolve_modules modules apps t)).isEmpty = true) :
    run modules apps t agent =
      ({ matched := somesOf (resolve_modules modules apps t)
         unmatched := nonesOf (resolve_modules modules apps t)
         total := modules.length, llm_matched := [] }, []) := by
  simp only [run, h]
  rfl

theorem run_of_some_unmatched (modules : List DiscoveredModule)
    (apps : List AppCandidate) (t : ℚ) (agent : DiscoveredModule → AgentOutcome)
    (h : (nonesOf (resolve_modules modules apps t)).isEmpty = false) :
    run modules apps t agent =
      ({ matched := somesOf (resolve_modules modules apps t)
         unmatched := nonesOf (llm_resolve_modules
           (modules.filter (fun m =>
             (nonesOf (resolve_modules modules apps t)).contains m.path)) agent)
         total := modules.length
         llm_matched := somesOf (llm_resolve_modules
           (modules.filter (fun m =>
             (nonesOf (resolve_modules modules apps t)).contains m.path)) agent) },
       modules.filter (fun m =>
         (nonesOf (resolve_modules modules apps t)).contains m.path)) := by
  simp only [run, h]
  rfl

/-- C3: in all-modules (batch) mode, the three output buckets —
deterministic matches, agent matches, unresolved paths — partition the
input path set: their union is exactly the set of input module paths and
they are pairwise disjoint, so every input path appears in exactly one
bucket. -/
theorem pipeline_partition (modules : List DiscoveredModule)
    (apps : List AppCandidate) (confidence_threshold : ℚ)
    (agent : DiscoveredModule → AgentOutcome) (p : String) :
    ((p ∈ ((run modules apps confidence_threshold agent).1.matched.map Prod.fst) ∨
      p ∈ ((run modules apps confidence_threshold agent).1.llm_matched.map Prod.fst) ∨
      p ∈ (run modules apps confidence_threshold agent).1.unmatched) ↔
      p ∈ modules.map (fun m => m.path)) ∧
    ¬(p ∈ ((run modules apps confidence_threshold agent).1.matched.map Prod.fst) ∧
      p ∈ ((run modules apps confidence_threshold agent).1.llm_matched.map Prod.fst)) ∧
    ¬(p ∈ ((run modules apps confidence_threshold agent).1.matched.map Prod.fst) ∧
      p ∈ (run modules apps confidence_threshold agent).1.unmatched) ∧
    ¬(p ∈ ((run modules apps confidence_threshold agent).1.llm_matched.map Prod.fst) ∧
      p ∈ (run modules apps confidence_threshold agent).1.unmatched) := by
  have hnod : (dictKeys (resolve_modules modules apps confidence_threshold)).Nodup :=
    nodup_dictKeys_buildDict _ _
  have hsplit := dict_split_partition _ hnod p
  have hkeys : p ∈ dictKeys (resolve_modules modules apps confidence_threshold) ↔
      p ∈ modules.map (fun m => m.path) :=
    mem_dictKeys_buildDict _ _ _
  cases hN : (nonesOf (resolve_modules modules apps confidence_threshold)).isEmpty with
  | true =>
    rw [run_of_all_matched modules apps confidence_threshold agent hN]
    have hempty : nonesOf (resolve_modules modules apps confidence_threshold) = [] :=
      List.isEmpty_iff.mp hN
    refine ⟨?_, ?_, ?_, ?_⟩
    · constructor
      · rintro (hm | hl | hu)
        · exact hkeys.mp (hsplit.1.mpr (Or.inl hm))
        · exact absurd hl (List.not_mem_nil p)
        · exact absurd (hempty ▸ hu) (List.not_mem_nil p)
      · intro hp
        rcases hsplit.1.mp (hkeys.mpr hp) with hm | hu
        · exact Or.inl hm
        · exact absurd (hempty ▸ hu) (List.not_mem_nil p)
    · rintro ⟨-, hl⟩
      exact absurd hl (List.not_mem_nil p)
    · rintro ⟨-, hu⟩
      exact absurd (hempty ▸ hu) (List.not_mem_nil p)
    · rintro ⟨hl, -⟩
      exact absurd hl (List.not_mem_nil p)
  | false =>
    rw [run_of_some_unmatched modules apps confidence_threshold agent hN]
    have hnod2 : (dictKeys (llm_resolve_modules
        (modules.filter (fun m =>
          (nonesOf (resolve_modules modules apps confidence_threshold)).contains
            m.path)) agent)).Nodup :=
      nodup_dictKeys_buildDict _ _
    have hsplit2 := dict_split_partition _ hnod2 p
    have hkeys2 : p ∈ dictKeys (llm_resolve_modules
        (modules.filter (fun m =>
          (nonesOf (resolve_modules modules apps confidence_threshold)).contains
            m.path)) agent) ↔
        p ∈ (modules.filter (fun m =>
          (nonesOf (resolve_modules modules apps confidence_threshold)).contains
            m.path)).map (fun m => m.path) :=
      mem_dictKeys_buildDict _ _ _
    have hum : p ∈ (modules.filter (fun m =>
        (nonesOf (resolve_modules modules apps confidence_threshold)).contains
          m.path)).map (fun m => m.path) ↔
        p ∈ nonesOf (resolve_modules modules apps confidence_threshold) := by
      constructor
      · intro hmem
        obtain ⟨m, hm, rfl⟩ := List.mem_map.mp hmem
        have := (List.mem_filter.mp hm).2
        simpa using this
      · intro hmem
        have hinkeys : p ∈ dictKeys (resolve_modules modules apps
            confidence_threshold) := hsplit.1.mpr (Or.inr hmem)
        obtain ⟨m, hm, rfl⟩ := List.mem_map.mp (hkeys.mp hinkeys)
        exact List.mem_map.mpr ⟨m, List.mem_filter.mpr ⟨hm, by simpa using hmem⟩, rfl⟩
    have f1 : p ∈ modules.map (fun m => m.path) ↔
        p ∈ (somesOf (resolve_modules modules apps confidence_threshold)).map
          Prod.fst ∨
        p ∈ nonesOf (resolve_modules modules apps confidence_threshold) := by
      rw [← hkeys]
      exact hsplit.1
    have f2 := hsplit.2
    have f3 : p ∈ nonesOf (resolve_modules modules apps confidence_threshold) ↔
        p ∈ (somesOf (llm_resolve_modules
          (modules.filter (fun m =>
            (nonesOf (resolve_modules modules apps confidence_threshold)).contains
              m.path)) agent)).map Prod.fst ∨
        p ∈ nonesOf (llm_resolve_modules
          (modules.filter (fun m =>
            (nonesOf (resolve_modules modules apps confidence_threshold)).contains
              m.path)) agent) := by
      rw [← hum, ← hkeys2]
      exact hsplit2.1
    have f4 := hsplit2.2
    refine ⟨?_, ?_, ?_, ?_⟩
    · constructor
      · rintro (hm | hl | hu)
        · exact f1.mpr (Or.inl hm)
        · exact f1.mpr (Or.inr (f3.mpr (Or.inl hl)))
        · exact f1.mpr (Or.inr (f3.mpr (Or.inr hu)))
      · intro hp
        rcases f1.mp hp with hm | hn
        · exact Or.inl hm
        · rcases f3.mp hn with hl | hu
          · exact Or.inr (Or.inl hl)
          · exact Or.inr (Or.inr hu)
    · rintro ⟨hm, hl⟩
      exact f2 ⟨hm, f3.mpr (Or.inl hl)⟩
    · rintro ⟨hm, hu⟩
      exact f2 ⟨hm, f3.mpr (Or.inr hu)⟩
    · rintro ⟨hl, hu⟩
      exact f4 ⟨hl, hu⟩

theorem somesKeys_sublist {α : Type} :
    ∀ (d : List (String × Option α)),
      ((somesOf d).map Prod.fst).Sublist (dictKeys d)
  | [] => List.Sublist.refl []
  | (k, none) :: d => by
    show ((somesOf d).map Prod.fst).Sublist (k :: dictKeys d)
    exact (somesKeys_sublist d).cons k
  | (k, some v) :: d => by
    show (k :: (somesOf d).map Prod.fst).Sublist (k :: dictKeys d)
    exact (somesKeys_sublist d).cons₂ k

theorem nonesKeys_sublist {α : Type} :
    ∀ (d : List (String × Option α)), (nonesOf d).Sublist (dictKeys d)
  | [] => List.Sublist.refl []
  | (k, none) :: d => by
    show (k :: nonesOf d).Sublist (k :: dictKeys d)
    exact (nonesKeys_sublist d).cons₂ k
  | (k, some v) :: d => by
    show (nonesOf d).Sublist (k :: dictKeys d)
    exact (nonesKeys_sublist d).cons k

/-- C10: `resolve_modules` and the batch pipeline key their results by
module path alone — the value stored under a path is the resolution of
the last input module carrying that path, the result dict and the union
of the three buckets hold exactly one entry for the path, while the
reported total counts every input module. -/
theorem resolve_modules_keyed_by_path (modules : List DiscoveredModule)
    (cs : List AppCandidate) (t : ℚ) (p : String)
    (h : p ∈ modules.map (fun m => m.path)) :
    ∃ mlast, modules.reverse.find? (fun m => m.path = p) = some mlast ∧
      dictLookup (resolve_modules modules cs t) p =
        some (resolve_module mlast cs t) ∧
      (dictKeys (resolve_modules modules cs t)).count p = 1 ∧
      ∀ (apps : List AppCandidate) (agent : DiscoveredModule → AgentOutcome),
        (run modules apps t agent).1.total = modules.length ∧
        ((run modules apps t agent).1.matched.map Prod.fst).count p +
          ((run modules apps t agent).1.llm_matched.map Prod.fst).count p +
          (run modules apps t agent).1.unmatched.count p = 1 := by
  obtain ⟨m0, hm0, hm0p⟩ := List.mem_map.mp h
  have hfindsome : (modules.reverse.find? (fun m => m.path = p)).isSome := by
    rw [List.find?_isSome]
    exact ⟨m0, List.mem_reverse.mpr hm0, by simpa using hm0p⟩
  obtain ⟨mlast, hfind⟩ := Option.isSome_iff_exists.mp hfindsome
  refine ⟨mlast, hfind, ?_, ?_, ?_⟩
  · exact dictLookup_foldl_last _ modules [] p mlast hfind
  · exact List.count_eq_one_of_mem (nodup_dictKeys_buildDict _ _)
      ((mem_dictKeys_buildDict _ _ _).mpr h)
  · intro apps agent
    have hnod : (dictKeys (resolve_modules modules apps t)).Nodup :=
      nodup_dictKeys_buildDict _ _
    have hsplit := dict_split_partition _ hnod p
    have hkeys : p ∈ dictKeys (resolve_modules modules apps t) ↔
        p ∈ modules.map (fun m => m.path) :=
      mem_dictKeys_buildDict _ _ _
    have hMnodup : ((somesOf (resolve_modules modules apps t)).map
        Prod.fst).Nodup :=
      hnod.sublist (somesKeys_sublist _)
    have hNnodup : (nonesOf (resolve_modules modules apps t)).Nodup :=
      hnod.sublist (nonesKeys_sublist _)
    cases hN : (nonesOf (resolve_modules modules apps t)).isEmpty with
    | true =>
      rw [run_of_all_matched modules apps t agent hN]
      have hempty : nonesOf (resolve_modules modules apps t) = [] :=
        List.isEmpty_iff.mp hN
      refine ⟨rfl, ?_⟩
      have hm : p ∈ (somesOf (resolve_modules modules apps t)).map Prod.fst := by
        rcases hsplit.1.mp (hkeys.mpr h) with hm | hu
        · exact hm
        · rw [hempty] at hu
          exact absurd hu (List.not_mem_nil p)
      rw [List.count_eq_one_of_mem hMnodup hm,
        show (([] : List (String × LLMMatch)).map Prod.fst).count p = 0 from rfl,
        hempty]
      rfl
    | false =>
      rw [run_of_some_unmatched modules apps t agent hN]
      have hnod2 : (dictKeys (llm_resolve_modules
          (modules.filter (fun m =>
            (nonesOf (resolve_modules modules apps t)).contains m.path))
          agent)).Nodup :=
        nodup_dictKeys_buildDict _ _
      have hsplit2 := dict_split_partition _ hnod2 p
      have hkeys2 : p ∈ dictKeys (llm_resolve_modules
          (modules.filter (fun m =>
            (nonesOf (resolve_modules modules apps t)).contains m.path)) agent) ↔
          p ∈ (modules.filter (fun m =>
            (nonesOf (resolve_modules modules apps t)).contains m.path)).map
            (fun m => m.path) :=
        mem_dictKeys_buildDict _ _ _
      have hum : p ∈ (modules.filter (fun m =>
          (nonesOf (resolve_modules modules apps t)).contains m.path)).map
            (fun m => m.path) ↔
          p ∈ nonesOf (resolve_modules modules apps t) := by
        constructor
        · intro hmem
          obtain ⟨m, hm, rfl⟩ := List.mem_map.mp hmem
          have := (List.mem_filter.mp hm).2
          simpa using this
        · intro hmem
          have hinkeys : p ∈ dictKeys (resolve_modules modules apps t) :=
            hsplit.1.mpr (Or.inr hmem)
          obtain ⟨m, hm, rfl⟩ := List.mem_map.mp (hkeys.mp hinkeys)
          exact List.mem_map.mpr
            ⟨m, List.mem_filter.mpr ⟨hm, by simpa using hmem⟩, rfl⟩
      have hLnodup : ((somesOf (llm_resolve_modules
          (modules.filter (fun m =>
            (nonesOf (resolve_modules modules apps t)).contains m.path))
          agent)).map Prod.fst).Nodup :=
        hnod2.sublist (somesKeys_sublist _)
      have hUnodup : (nonesOf (llm_resolve_modules
          (modules.filter (fun m =>
            (nonesOf (resolve_modules modules apps t)).contains m.path))
          agent)).Nodup :=
        hnod2.sublist (nonesKeys_sublist _)
      refine ⟨rfl, ?_⟩
      rcases hsplit.1.mp (hkeys.mpr h) with hm | hn
      · have hnotn : p ∉ nonesOf (resolve_modules modules apps t) :=
          fun hn => hsplit.2 ⟨hm, hn⟩
        have hnotkeys2 : p ∉ dictKeys (llm_resolve_modules
            (modules.filter (fun m =>
              (nonesOf (resolve_modules modules apps t)).contains m.path))
            agent) :=
          fun hk => hnotn (hum.mp (hkeys2.mp hk))
        rw [List.count_eq_one_of_mem hMnodup hm,
          List.count_eq_zero_of_not_mem (fun hl => hnotkeys2
            (hsplit2.1.mpr (Or.inl hl))),
          List.count_eq_zero_of_not_mem (fun hu => hnotkeys2
            (hsplit2.1.mpr (Or.inr hu)))]
      · have hnotm : p ∉ (somesOf (resolve_modules modules apps t)).map
            Prod.fst :=
          fun hm => hsplit.2 ⟨hm, hn⟩
        rw [List.count_eq_zero_of_not_mem hnotm]
        rcases hsplit2.1.mp (hkeys2.mpr (hum.mpr hn)) with hl | hu
        · rw [List.count_eq_one_of_mem hLnodup hl,
            List.count_eq_zero_of_not_mem (fun hu => hsplit2.2 ⟨hl, hu⟩)]
        · rw [List.count_eq_one_of_mem hUnodup hu,
            List.count_eq_zero_of_not_mem (fun hl => hsplit2.2 ⟨hl, hu⟩)]

/-- The java half of the C10 duplicate-path pair. -/
def dupJavaModule : DiscoveredModule :=
  { name := "svc-api", path := "svc", manifest := "pom.xml", ecosystem := .java }

/-- The node half of the C10 duplicate-path pair (same path, different
ecosystem, which the (path, ecosystem) uniqueness invariant permits). -/
def dupNodeModule : DiscoveredModule :=
  { name := "svc-ui", path := "svc", manifest := "package.json",
    ecosystem := .node }

/-- Witness for C10: with two same-path modules the stored outcome is the
later (node) module's resolution and the pipeline total still counts both. -/
theorem resolve_modules_keyed_by_path_witness :
    dictLookup (resolve_modules [dupJavaModule, dupNodeModule] [] (1/2)) "svc" =
      some (resolve_module dupNodeModule [] (1/2)) ∧
    (run [dupJavaModule, dupNodeModule] [] (1/2)
      (fun _ => AgentOutcome.error)).1.total = 2 := by
  obtain ⟨mlast, hfind, hlook, hcount, hrun⟩ :=
    resolve_modules_keyed_by_path [dupJavaModule, dupNodeModule] [] (1/2) "svc"
      (by simp [dupJavaModule, dupNodeModule])
  have heval : [dupJavaModule, dupNodeModule].reverse.find?
      (fun m => m.path = "svc") = some dupNodeModule := by
    decide
  rw [heval] at hfind
  have hml : mlast = dupNodeModule := by
    have := Option.some.inj hfind
    rw [this]
  subst hml
  exact ⟨hlook, (hrun [] (fun _ => AgentOutcome.error)).1⟩

theorem dictLookup_buildDict_last {α : Type} (f : DiscoveredModule → α)
    (ms : List DiscoveredModule) (p : String) (mlast : DiscoveredModule)
    (h : ms.reverse.find? (fun m => m.path = p) = some mlast) :
    dictLookup (buildDict f ms) p = some (f mlast) :=
  dictLookup_foldl_last f ms [] p mlast h

/-- C8: an exception inside one module's fallback agent invocation is
caught at the boundary (it yields the same absent outcome as an explicit
not-found) and the batch loop still assigns a terminal outcome to every
module — no exception propagates out of the batch. -/
theorem llm_agent_failure_isolated (modules : List DiscoveredModule)
    (agent : DiscoveredModule → AgentOutcome) :
    llm_resolve_module AgentOutcome.error = none ∧
    (∀ m, m ∈ modules →
      (dictLookup (llm_resolve_modules modules agent) m.path).isSome = true) ∧
    (∀ m mlast, m ∈ modules →
      modules.reverse.find? (fun x => x.path = m.path) = some mlast →
      agent mlast = AgentOutcome.error →
      dictLookup (llm_resolve_modules modules agent) m.path = some none) := by
  refine ⟨rfl, ?_, ?_⟩
  · intro m hm
    have hfindsome : (modules.reverse.find? (fun x => x.path = m.path)).isSome := by
      rw [List.find?_isSome]
      exact ⟨m, List.mem_reverse.mpr hm, by simp⟩
    obtain ⟨mlast, hfind⟩ := Option.isSome_iff_exists.mp hfindsome
    have heq : dictLookup (llm_resolve_modules modules agent) m.path =
        some (llm_resolve_module (agent mlast)) :=
      dictLookup_buildDict_last _ modules m.path mlast hfind
    rw [heq]
    rfl
  · intro m mlast hm hfind herr
    have heq : dictLookup (llm_resolve_modules modules agent) m.path =
        some (llm_resolve_module (agent mlast)) :=
      dictLookup_buildDict_last _ modules m.path mlast hfind
    rw [heq, herr]
    rfl

/-- The module whose agent invocation raises in the C8 witness. -/
def errPathModule : DiscoveredModule :=
  { name := "broken", path := "libs/broken", manifest := "package.json",
    ecosystem := .node }

/-- The module whose agent invocation succeeds in the C8 witness. -/
def okPathModule : DiscoveredModule :=
  { name := "mystery-app", path := "libs/mystery", manifest := "package.json",
    ecosystem := .node }

/-- The agent oracle of the C8 witness: raises on one module, returns a
structured match on every other. -/
def mixedAgentOracle : DiscoveredModule → AgentOutcome := fun m =>
  if m.path = "libs/broken" then AgentOutcome.error
  else AgentOutcome.output
    { application_id := "app-99", application_name := "mystery-service",
      confidence := LLMConfidence.HIGH, reasoning := "Found via README" }

/-- Witness for C8: in a two-module batch where the first module's agent
invocation raises, that module's outcome is stored as absent and the
second module still receives a terminal outcome. -/
theorem llm_agent_failure_isolated_witness :
    dictLookup (llm_resolve_modules [errPathModule, okPathModule]
      mixedAgentOracle) "libs/broken" = some none ∧
    (dictLookup (llm_resolve_modules [errPathModule, okPathModule]
      mixedAgentOracle) "libs/mystery").isSome = true := by
  obtain ⟨hcaught, hall, hlast⟩ :=
    llm_agent_failure_isolated [errPathModule, okPathModule] mixedAgentOracle
  constructor
  · exact hlast errPathModule errPathModule
      (List.mem_cons_self _ _) (by decide) (by decide)
  · exact hall okPathModule
      (List.mem_cons_of_mem _ (List.mem_cons_self _ _))

theorem identify_repo_eq_fallback_of_target (modules : List DiscoveredModule)
    (candidates : List AppCandidate) (agent : DiscoveredModule → AgentOutcome)
    (threshold : ℚ) (target : DiscoveredModule)
    (hinv : (identify_repo modules candidates true agent threshold).2 =
      some target) :
    identify_repo modules candidates true agent threshold =
      identifyLlmFallback target agent := by
  have hfb : ∀ (x : DiscoveredModule), (identifyLlmFallback x agent).2 = some x := by
    intro x
    unfold identifyLlmFallback
    cases llm_resolve_module (agent x) with
    | none => rfl
    | some lm => rfl
  unfold identify_repo at hinv ⊢
  by_cases hc : candidates.isEmpty
  · rw [if_pos hc] at hinv ⊢
    exact absurd hinv (by simp)
  · rw [if_neg hc] at hinv ⊢
    cases modules with
    | nil => exact absurd hinv (by simp)
    | cons m0 ms =>
      cases hbest : _best_deterministic_match (m0 :: ms) candidates with
      | some b =>
        rw [hbest] at hinv
        simp only [] at hinv ⊢
        by_cases hacc : b.confidence ≥ threshold ∧
            identifyAmbiguous b candidates = false
        · rw [if_pos hacc] at hinv
          exact absurd hinv (by simp)
        · rw [if_neg hacc] at hinv ⊢
          rw [if_pos trivial] at hinv ⊢
          have htgt : b.module = target :=
            Option.some.inj ((hfb b.module).symm.trans hinv)
          rw [htgt]
      | none =>
        rw [hbest] at hinv
        simp only [] at hinv ⊢
        rw [if_pos trivial] at hinv ⊢
        have htgt : m0 = target :=
          Option.some.inj ((hfb m0).symm.trans hinv)
        rw [htgt]

/-- C7: whenever the fallback agent returns a result with a concrete
identifier, the orchestrator produces a match whose confidence is the
fixed mapping HIGH→19/20, MEDIUM→4/5, LOW→3/5 of the agent's categorical
confidence and whose provenance tag is "llm"; the numeric confidence
always lies in [0, 1]. -/
theorem identify_llm_reconciliation (modules : List DiscoveredModule)
    (candidates : List AppCandidate) (agent : DiscoveredModule → AgentOutcome)
    (threshold : ℚ) (target : DiscoveredModule) (lm : LLMMatch)
    (hinv : (identify_repo modules candidates true agent threshold).2 =
      some target)
    (hout : agent target = AgentOutcome.output lm)
    (hconcrete : lm.application_id ≠ "NOT_FOUND") :
    (identify_repo modules candidates true agent threshold).1 =
      some { module := target, app_id := lm.application_id
             app_name := lm.application_name
             confidence := llmConfidenceMap lm.confidence
             search_term := extract_search_term target, source := "llm" } ∧
    0 ≤ llmConfidenceMap lm.confidence ∧ llmConfidenceMap lm.confidence ≤ 1 ∧
    llmConfidenceMap LLMConfidence.HIGH = 19/20 ∧
    llmConfidenceMap LLMConfidence.MEDIUM = 4/5 ∧
    llmConfidenceMap LLMConfidence.LOW = 3/5 := by
  have hpair := identify_repo_eq_fallback_of_target modules candidates agent
    threshold target hinv
  have hres : llm_resolve_module (agent target) = some lm := by
    rw [hout]
    unfold llm_resolve_module
    simp only []
    rw [if_neg hconcrete]
  refine ⟨?_, ?_, ?_, rfl, rfl, rfl⟩
  · rw [hpair]
    unfold identifyLlmFallback
    rw [hres]
  · cases lm.confidence <;> norm_num [llmConfidenceMap]
  · cases lm.confidence <;> norm_num [llmConfidenceMap]

/-- The module of the C7 witness (its deterministic score against the
lone candidate is 0, so the best match is absent and the fallback runs). -/
def xyzServiceModule : DiscoveredModule :=
  { name := "xyz-service", path := ".", manifest := "pom.xml",
    ecosystem := .java }

/-- The lone (non-matching) candidate of the C7 witness. -/
def abcAppCandidate : AppCandidate :=
  { app_id := "a1", name := "abc-app", language := "Node" }

/-- The structured result the C7 witness agent returns. -/
def highConfidenceMatch : LLMMatch :=
  { application_id := "app-99", application_name := "XYZ Service",
    confidence := LLMConfidence.HIGH, reasoning := "Found via README" }

/-- Witness for C7: with the deterministic phase empty-handed, the agent's
HIGH-confidence concrete result becomes a Match with confidence 19/20 and
the "llm" provenance tag. -/
theorem identify_llm_reconciliation_witness :
    (identify_repo [xyzServiceModule] [abcAppCandidate] true
      (fun _ => AgentOutcome.output highConfidenceMatch) (7/10)).1 =
      some { module := xyzServiceModule, app_id := "app-99"
             app_name := "XYZ Service", confidence := 19/20
             search_term := "xyz-service", source := "llm" } := by
  have h := identify_llm_reconciliation [xyzServiceModule] [abcAppCandidate]
    (fun _ => AgentOutcome.output highConfidenceMatch) (7/10)
    xyzServiceModule highConfidenceMatch
    (by
      norm_num +decide [identify_repo, _best_deterministic_match,
        resolve_module, stepBest, score_candidate, extract_search_term,
        extract_search_term.extractFromName, tokenizeFn, segmentsAcc,
        isSepChar, lowerStr, lowerChar, ecosystemToLanguage,
        identifyLlmFallback, llm_resolve_module, highConfidenceMatch,
        xyzServiceModule, abcAppCandidate])
    rfl
    (by decide)
  rw [h.1]
  norm_num +decide [llmConfidenceMap, highConfidenceMatch, xyzServiceModule,
    extract_search_term, extract_search_term.extractFromName]

theorem isCrlfChar_isCtrlChar (c : Char) (h : isCrlfChar c = true) :
    isCtrlChar c = true := by
  unfold isCrlfChar at h
  unfold isCtrlChar
  rcases (by simpa using h : c = '\r' ∨ c = '\n') with rfl | rfl <;> decide

theorem dropWhile_append_all {p : Char → Bool} :
    ∀ (r ys : List Char), (∀ c ∈ r, p c = true) →
      (r ++ ys).dropWhile p = ys.dropWhile p
  | [], ys, _ => rfl
  | c :: r, ys, h => by
    rw [List.cons_append, List.dropWhile_cons_of_pos (h c (List.mem_cons_self c r))]
    exact dropWhile_append_all r ys (fun x hx => h x (List.mem_cons_of_mem c hx))

theorem mem_sanitizeChars :
    ∀ (l : List Char), ∀ c ∈ sanitizeChars l,
      isCtrlChar c = false ∧ isInjectionChar c = false
  | [] => by
    intro c hc
    rw [sanitizeChars] at hc
    exact absurd hc (List.not_mem_nil c)
  | c0 :: cs => by
    intro c hc
    rw [sanitizeChars] at hc
    by_cases h1 : isCrlfChar c0
    · rw [if_pos h1] at hc
      rcases List.mem_cons.mp hc with rfl | hc2
      · exact ⟨by decide, by decide⟩
      · exact mem_sanitizeChars (cs.dropWhile isCrlfChar) c hc2
    · rw [if_neg h1] at hc
      by_cases h2 : isCtrlChar c0 = true ∨ isInjectionChar c0 = true
      · rw [if_pos h2] at hc
        exact mem_sanitizeChars cs c hc
      · rw [if_neg h2] at hc
        rcases List.mem_cons.mp hc with rfl | hc2
        · push_neg at h2
          exact ⟨Bool.eq_false_iff.mpr (fun hb => by simp [hb] at h2),
            Bool.eq_false_iff.mpr (fun hb => by simp [hb] at h2)⟩
        · exact mem_sanitizeChars cs c hc2
termination_by l => l.length
decreasing_by
  all_goals simp only [List.length_cons]
  · exact Nat.lt_succ_of_le (List.dropWhile_sublist _).length_le
  · omega
  · omega

theorem sanitizeChars_id :
    ∀ (l : List Char),
      (∀ c ∈ l, isCtrlChar c = false ∧ isInjectionChar c = false) →
      sanitizeChars l = l
  | [], _ => by rw [sanitizeChars]
  | c0 :: cs, h => by
    have h0 := h c0 (List.mem_cons_self c0 cs)
    have hcrlf : isCrlfChar c0 = false := by
      cases hb : isCrlfChar c0
      · rfl
      · rw [isCrlfChar_isCtrlChar c0 hb] at h0
        exact absurd h0.1 (by simp)
    rw [sanitizeChars, if_neg (by simp [hcrlf]),
      if_neg (by simp [h0.1, h0.2]),
      sanitizeChars_id cs (fun x hx => h x (List.mem_cons_of_mem c0 hx))]

/-- C4 (spec-modelled): the sanitizer applied to every module-derived
string interpolated into the agent instructions truncates to at most 200
characters, leaves no control and no prompt-structure character in its
output, collapses each CR/LF run into a single space, removes other
control characters (NUL, TAB, ...) and prompt-structure characters
without a replacement, passes strings of legitimate identifier
characters (hyphen, dot, colon, slash, at-sign, space, backslash, ...)
of length at most 200 through unchanged, and both interpolated prompt
fields (name and path) go through it. -/
theorem sanitize_spec :
    (∀ s : String, (_sanitize s).length ≤ 200) ∧
    (∀ s : String, ∀ c ∈ (_sanitize s).data,
      isCtrlChar c = false ∧ isInjectionChar c = false) ∧
    (∀ (r ys : List Char), r ≠ [] → (∀ c ∈ r, isCrlfChar c = true) →
      sanitizeChars (r ++ ys) = ' ' :: sanitizeChars (ys.dropWhile isCrlfChar)) ∧
    (∀ (c : Char) (ys : List Char), isCtrlChar c = true → isCrlfChar c = false →
      sanitizeChars (c :: ys) = sanitizeChars ys) ∧
    (∀ (c : Char) (ys : List Char), isInjectionChar c = true →
      isCrlfChar c = false → sanitizeChars (c :: ys) = sanitizeChars ys) ∧
    (∀ s : String, s.length ≤ 200 →
      (∀ c ∈ s.data, isCtrlChar c = false ∧ isInjectionChar c = false) →
      _sanitize s = s) ∧
    (∀ m : DiscoveredModule,
      sanitizedPromptFields m = (_sanitize m.name, _sanitize m.path)) := by
  refine ⟨?_, ?_, ?_, ?_, ?_, ?_, fun m => rfl⟩
  · intro s
    show ((sanitizeChars s.data).take 200).length ≤ 200
    rw [List.length_take]
    exact min_le_left 200 _
  · intro s c hc
    exact mem_sanitizeChars s.data c (List.take_subset 200 _ hc)
  · rintro (_ | ⟨c0, r⟩) ys hne hall
    · exact absurd rfl hne
    · rw [List.cons_append, sanitizeChars,
        if_pos (hall c0 (List.mem_cons_self c0 r)),
        dropWhile_append_all r ys
          (fun x hx => hall x (List.mem_cons_of_mem c0 hx))]
  · intro c ys hctrl hcrlf
    rw [sanitizeChars, if_neg (by simp [hcrlf]), if_pos (Or.inl hctrl)]
  · intro c ys hinj hcrlf
    rw [sanitizeChars, if_neg (by simp [hcrlf]), if_pos (Or.inr hinj)]
  · intro s hlen hall
    show String.mk ((sanitizeChars s.data).take 200) = s
    rw [sanitizeChars_id s.data hall,
      List.take_of_length_le (by exact hlen)]

/-- Witness for C4: a CR/LF pair collapses to a single space and a
legitimate Maven identifier passes through the sanitizer unchanged. -/
theorem sanitize_spec_witness :
    sanitizeChars (['\r', '\n'] ++ "name".data) =
      ' ' :: sanitizeChars ("name".data.dropWhile isCrlfChar) ∧
    _sanitize "com.acme:order-api" = "com.acme:order-api" := by
  obtain ⟨-, -, hcollapse, -, -, hid, -⟩ := sanitize_spec
  exact ⟨hcollapse ['\r', '\n'] "name".data (by decide) (by decide),
    hid "com.acme:order-api" (by decide) (by decide)⟩

/-- C5 at its failing input (code_bug): with one discovered module and
zero registry candidates, single-best mode returns absent with no agent
invocation, but batch mode does not terminate early — the run hands the
module to the fallback agent (the instrumented invocation list is
non-empty) even though the candidate list is empty. -/
theorem zero_candidates_batch_invokes_agent :
    identify_repo [xyzServiceModule] [] true
      (fun _ => AgentOutcome.error) (7/10) = (none, none) ∧
    (run [xyzServiceModule] [] (1/2) (fun _ => AgentOutcome.error)).2 =
      [xyzServiceModule] ∧
    (run [xyzServiceModule] [] (1/2) (fun _ => AgentOutcome.error)).1.matched =
      [] ∧
    (run [xyzServiceModule] [] (1/2) (fun _ => AgentOutcome.error)).1.unmatched =
      ["."] := by
  refine ⟨rfl, ?_⟩
  norm_num +decide [run, resolve_modules, buildDict, dictInsert, somesOf,
    nonesOf, resolve_module, llm_resolve_modules, llm_resolve_module,
    xyzServiceModule]

end ContrastModuleIdentifier
